import Mathlib

/-!
# Verification of the wordpress-go-proxy page/menu pipeline

A shallow embedding of the core of `wordpress-go-proxy`:
the path resolver and response handling of `FetchPage`
(`internal/api/wordpress.go`), the menu-tree builder `NewMenuData` and the
view-model assembler `NewPageData` (`pkg/models/wordpress.go`), the startup
menu aggregation of `NewWordPressClient`, and the request-construction steps
of `FetchMenu`.

Go strings are modelled as `List Char`; Go maps as total functions returning
`Option`; Go errors as a pair of the error value's dynamic type name and its
message.  Each definition is translated from the Go source; line references
are given in the doc comments.
-/

/-- Go strings, modelled as lists of characters. -/
abbrev GoStr := List Char

/-! ## Go standard-library string operations used by the source -/

/-- `strings.TrimSuffix(s, suffix)`: `s` without the provided trailing
`suffix` string; `s` unchanged if it does not end in `suffix`. -/
def goTrimSuffix (s suffix : GoStr) : GoStr :=
  if suffix.isSuffixOf s then s.take (s.length - suffix.length) else s

/-- `strings.Split(s, sep)` for a one-character separator `sep` (the source
only ever splits on the one-character strings `"/"` and `"T"`): all
substrings between occurrences of `sep`, including empty ones;
`Split("", sep) = [""]`. -/
def goSplitChar (s : GoStr) (sep : Char) : List GoStr :=
  match s with
  | [] => [[]]
  | c :: rest =>
    if c = sep then [] :: goSplitChar rest sep
    else
      match goSplitChar rest sep with
      | [] => [[c]]
      | g :: gs => (c :: g) :: gs

/-- `strings.LastIndex(s, c)` for a one-character substring `c`: the index
of the last occurrence of `c` in `s`, or `-1` if absent. -/
def goLastIndexChar (s : GoStr) (c : Char) : Int :=
  match s.reverse.findIdx? (· = c) with
  | none => -1
  | some j => (s.length : Int) - 1 - (j : Int)

/-- `strings.Replace(s, old, "", 1)`: remove the first (leftmost) occurrence
of `old` from `s`; `s` unchanged when `old` does not occur.  When `old` is
empty, Go inserts the (empty) replacement once, leaving `s` unchanged, which
the `old ≠ []` guard reproduces. -/
def goReplaceOnce (s old : GoStr) : GoStr :=
  if h : old ≠ [] ∧ old <+: s then s.drop old.length
  else
    match s with
    | [] => []
    | c :: rest => c :: goReplaceOnce rest old
termination_by s.length
decreasing_by simp_wf

/-- `strings.ReplaceAll(s, old, "")`: remove every occurrence of `old` from
`s`, scanning left to right and continuing after each removal.  When `old`
is empty, Go inserts the (empty) replacement at every boundary, leaving `s`
unchanged, which the `old ≠ []` guard reproduces. -/
def goReplaceAll (s old : GoStr) : GoStr :=
  if h : old ≠ [] ∧ old <+: s then goReplaceAll (s.drop old.length) old
  else
    match s with
    | [] => []
    | c :: rest => c :: goReplaceAll rest old
termination_by s.length
decreasing_by
  · simp_wf
    have hlen : old.length ≤ s.length := h.2.length_le
    have hpos : 0 < old.length := List.length_pos.mpr h.1
    omega
  · simp_wf

/-! ## Path Resolver (`internal/api/wordpress.go`, lines 119–135)

The slug/language resolution inlined at the top of `FetchPage`:
```go
path = strings.TrimSuffix(path, "/")
slug := path[strings.LastIndex(path, "/")+1:]
segments := strings.Split(path, "/")
lang := "en"
if len(segments) > 1 && segments[1] == "fr" { lang = "fr" }
homePages := map[string]string{"": "home", "fr": "home-fr"}
if homeSlug, isHome := homePages[slug]; isHome { slug = homeSlug }
```
-/

/-- The `(slug, lang)` pair computed by the first part of `FetchPage`. -/
def resolvePath (path : GoStr) : GoStr × GoStr :=
  let path := goTrimSuffix path ("/".toList)
  let slug := path.drop (goLastIndexChar path '/' + 1).toNat
  let segments := goSplitChar path '/'
  let lang := if segments.length > 1 ∧ segments.getD 1 [] = ("fr".toList)
    then ("fr".toList) else ("en".toList)
  let slug := if slug = ("".toList) then ("home".toList)
    else if slug = ("fr".toList) then ("home-fr".toList)
    else slug
  (slug, lang)

example : resolvePath ("/".toList) = (("home".toList), ("en".toList)) := by decide
example : resolvePath ("/fr".toList) = (("home-fr".toList), ("fr".toList)) := by decide
example : resolvePath ("/about-us".toList) = (("about-us".toList), ("en".toList)) := by decide
example : resolvePath ("/fr/a-propos".toList) = (("a-propos".toList), ("fr".toList)) := by decide
example : resolvePath ("/fr/a-propos/".toList) = (("a-propos".toList), ("fr".toList)) := by decide

/-! ## Data model (`pkg/models/wordpress.go`)

`WordPressPage` and `WordPressMenuItem` mirror the Go structs; the nested
anonymous `Title`/`Content`/`Excerpt` structs are flattened into
`titleRendered`/`contentRendered`/`excerptRendered` fields. -/

/-- `models.WordPressPage` (wordpress.go lines 9–28). -/
structure WordPressPage where
  id : Int
  slug : GoStr
  slugEn : GoStr
  slugFr : GoStr
  lang : GoStr
  modified : GoStr
  contentRendered : GoStr
  titleRendered : GoStr
  excerptRendered : GoStr
deriving DecidableEq

/-- `models.WordPressMenuItem` (wordpress.go lines 30–37). -/
structure WordPressMenuItem where
  id : Int
  titleRendered : GoStr
  parent : Int
  url : GoStr
deriving DecidableEq

/-- `models.MenuItemData` (wordpress.go lines 53–58).  The Go struct stores
`Children []*MenuItemData`; since `NewMenuData` allocates exactly one node
per distinct item identifier (in the map `menuMap`), a pointer to a node is
represented by that node's identifier, to be resolved through the node map
of `MenuData`. -/
structure MenuItemData where
  id : Int
  title : GoStr
  url : GoStr
  children : List Int
deriving DecidableEq

/-- `models.MenuData` (wordpress.go lines 60–62).  `roots` holds the
identifiers of the nodes in the Go `Items` slice, in order; `map` is the
arena realizing the node pointers: it sends an identifier to the node
allocated for it by `NewMenuData` (or `none` for identifiers of no item). -/
structure MenuData where
  map : Int → Option MenuItemData
  roots : List Int

/-! ## Menu Tree Builder: `models.NewMenuData` (wordpress.go lines 94–120) -/

/-- The node allocated for one item in the first pass of `NewMenuData`
(lines 97–102): title copied, URL rewritten with
`strings.Replace(item.Url, baseUrl, "", 1)`, children empty. -/
def mkNode (item : WordPressMenuItem) (baseUrl : GoStr) : MenuItemData :=
  { id := item.id
    title := item.titleRendered
    url := goReplaceOnce item.url baseUrl
    children := [] }

/-- The loop body of the first pass of `NewMenuData` (lines 96–103):
`menuMap[item.ID] = &MenuItemData{...}`. -/
def menuMapStep (baseUrl : GoStr) (m : Int → Option MenuItemData)
    (item : WordPressMenuItem) : Int → Option MenuItemData :=
  fun k => if k = item.id then some (mkNode item baseUrl) else m k

/-- First pass of `NewMenuData` (lines 95–103): build `menuMap`, the map
from item identifier to freshly allocated node.  Later items with the same
identifier overwrite earlier ones, as in a Go map assignment. -/
def buildMenuMap (items : List WordPressMenuItem) (baseUrl : GoStr) :
    Int → Option MenuItemData :=
  items.foldl (menuMapStep baseUrl) (fun _ => none)

/-- One step of the second pass of `NewMenuData` (lines 107–115): an item
with a nonzero parent that exists in `menuMap` is appended to that parent's
children; an item with parent `0` is appended to the root list `menuTree`;
an item with a nonzero parent absent from `menuMap` changes nothing. -/
def menuTreeStep (st : (Int → Option MenuItemData) × List Int)
    (item : WordPressMenuItem) : (Int → Option MenuItemData) × List Int :=
  if item.parent ≠ 0 then
    match st.1 item.parent with
    | some parentNode =>
      (fun k => if k = item.parent
          then some { parentNode with children := parentNode.children ++ [item.id] }
          else st.1 k,
        st.2)
    | none => st
  else
    (st.1, st.2 ++ [item.id])

/-- `models.NewMenuData` (lines 94–120): two passes over the flat item
list; returns the root list together with the final node map. -/
def goNewMenuData (menuItems : List WordPressMenuItem) (baseUrl : GoStr) :
    MenuData :=
  let menuMap := buildMenuMap menuItems baseUrl
  let st := menuItems.foldl menuTreeStep (menuMap, [])
  { map := st.1, roots := st.2 }

/-- `c` is in the children of the node for `p` in menu data `d`. -/
def isChildOf (d : MenuData) (p c : Int) : Bool :=
  match d.map p with
  | some n => decide (c ∈ n.children)
  | none => false

example :
    let items := [⟨1, ("a".toList), 0, ("".toList)⟩, ⟨2, ("b".toList), 1, ("".toList)⟩,
      ⟨3, ("c".toList), 7, ("".toList)⟩]
    (goNewMenuData items []).roots = [1] ∧
      isChildOf (goNewMenuData items []) 1 2 = true ∧
      isChildOf (goNewMenuData items []) 1 3 = false := by decide

example :
    let items := [⟨2, ("b".toList), 1, ("".toList)⟩, ⟨1, ("a".toList), 0, ("".toList)⟩]
    (goNewMenuData items []).roots = [1] ∧
      isChildOf (goNewMenuData items []) 1 2 = true := by decide

/-! ## View Model Assembler: `models.NewPageData` (wordpress.go lines 64–92) -/

/-- `models.PageData` (wordpress.go lines 39–51).  `template.HTML` fields
are plain strings; `Path` is never assigned by `NewPageData` and stays the
Go zero value. -/
structure PageData where
  lang : GoStr
  langSwapPath : GoStr
  langSwapSlug : GoStr
  home : GoStr
  modified : GoStr
  title : GoStr
  content : GoStr
  excerpt : GoStr
  path : GoStr
  siteName : GoStr
  menu : MenuData

/-- The `langPaths` map literal of `NewPageData` (lines 71–78): for each
language key, the swap path, the swap slug and the home path.  A key other
than `"en"`/`"fr"` yields the Go zero-value struct. -/
def langPaths (page : WordPressPage) (lang : GoStr) : GoStr × GoStr × GoStr :=
  if lang = ("en".toList) then (("/fr/".toList), page.slugFr, ("/".toList))
  else if lang = ("fr".toList) then (("/".toList), page.slugEn, ("/fr/".toList))
  else ([], [], [])

/-- `models.NewPageData` (lines 64–92).  `siteNames` models the Go
`map[string]string` (total, returning the zero value `""` for absent
keys). -/
def goNewPageData (page : WordPressPage) (menu : MenuData)
    (siteNames : GoStr → GoStr) (baseUrl : GoStr) : PageData :=
  let lang := if page.lang ≠ ("en".toList) ∧ page.lang ≠ ("fr".toList)
    then ("en".toList) else page.lang
  { lang := lang
    langSwapPath := (langPaths page lang).1
    langSwapSlug := (langPaths page lang).2.1
    home := (langPaths page lang).2.2
    modified := (goSplitChar page.modified 'T').headD []
    title := page.titleRendered
    content := goReplaceAll page.contentRendered baseUrl
    excerpt := page.excerptRendered
    path := []
    siteName := siteNames lang
    menu := menu }

/-! ## CMS Client error model (`internal/api/wordpress.go`)

A Go `error` is an interface value; what a caller can inspect is the
value's dynamic type (via type assertion / `errors.As`) and its message.
Both are captured in `GoError`.  Errors produced by `fmt.Errorf` without a
`%w` verb (as in this source) have dynamic type `*errors.errorString`;
errors returned by `http.Client.Do` are documented to be `*url.Error`;
errors returned by `encoding/json.Unmarshal` are one of that package's
dedicated error types. -/

/-- A Go error value: the name of its dynamic type, and its message. -/
structure GoError where
  typeName : GoStr
  msg : GoStr
deriving DecidableEq

/-- The error built by `fmt.Errorf` with no `%w` verb: dynamic type
`*errors.errorString`, carrying only a message. -/
def mkErrorString (msg : GoStr) : GoError :=
  { typeName := ("errorString".toList), msg := msg }

/-- Dynamic type of errors returned by `http.Client.Do`. -/
def urlErrorType : GoStr := ("url.Error".toList)

/-- Dynamic types of errors returned by `encoding/json.Unmarshal`. -/
def jsonUnmarshalErrorTypes : List GoStr :=
  [("json.SyntaxError".toList), ("json.UnmarshalTypeError".toList),
    ("json.InvalidUnmarshalError".toList)]

/-- Decimal rendering of a Go `int` (the `%d` verb). -/
def goIntToStr (n : Int) : GoStr :=
  if n < 0 then '-' :: (Nat.toDigits 10 (-n).toNat)
  else Nat.toDigits 10 n.toNat

/-- The message of the non-200 failure of `FetchPage`/`FetchMenu`
(lines 97 and 154): `fmt.Sprintf("WordPress API returned status: %d, body: %s", ...)`. -/
def statusFailMsg (status : Int) (body : GoStr) : GoStr :=
  ("WordPress API returned status: ".toList) ++ goIntToStr status
    ++ (", body: ".toList) ++ body

/-- Result of `json.Unmarshal(body, &pages)`: either a parse failure or a
list of pages.  JSON parsing itself is outside the translated core; the
outcome is supplied as data. -/
inductive PagesParse where
  | failure (e : GoError)
  | ok (pages : List WordPressPage)

/-- Outcome of `client.Do(req)` together with the read body: either a
transport failure (a `*url.Error` with some message) or a response with a
status code, the raw body, and the body's JSON parse outcome. -/
inductive HTTPOutcome where
  | transportErr (msg : GoStr)
  | response (status : Int) (bodyRaw : GoStr) (parsed : PagesParse)

/-- Response handling of `FetchPage` (wordpress.go lines 146–175): a
transport failure is returned unchanged; a non-200 status yields the
status-failure `fmt.Errorf`; a body that fails JSON parsing yields the
parse error unchanged; a parsed empty array yields
`fmt.Errorf("page not found")`; otherwise the first page is returned. -/
def fetchPageProcess (outcome : HTTPOutcome) : Except GoError WordPressPage :=
  match outcome with
  | .transportErr msg => .error { typeName := urlErrorType, msg := msg }
  | .response status bodyRaw parsed =>
    if status ≠ 200 then .error (mkErrorString (statusFailMsg status bodyRaw))
    else
      match parsed with
      | .failure e => .error e
      | .ok pages =>
        match pages with
        | [] => .error (mkErrorString ("page not found".toList))
        | p :: _ => .ok p

/-! ## `FetchMenu` request construction (wordpress.go lines 79–83)

```go
req, err := http.NewRequest("GET", fmt.Sprintf(...), nil)
req.Header.Add("Authorization", "Basic "+c.WordPressAuth)
if err != nil {
    return nil, err
}
```
`http.NewRequest` returns the pair `(req, err)`, with `req == nil` exactly
when `err != nil`; both components are modelled explicitly.  Accessing
`req.Header` on a nil `req` is a nil-pointer dereference (a runtime
panic). -/

/-- An `*http.Request` as far as this code touches it. -/
structure HttpRequest where
  url : GoStr
  headers : List (GoStr × GoStr)
deriving DecidableEq

/-- What the first statements of `FetchMenu` do, as a function of the pair
returned by `http.NewRequest`:  panic from dereferencing a nil request,
return the construction error, or proceed with the header-bearing
request. -/
inductive FetchMenuStart where
  | nilPanic
  | errorReturn (e : GoError)
  | proceeds (req : HttpRequest)
deriving DecidableEq

/-- Lines 79–83 of `FetchMenu`: the `Authorization` header is added to
`req` before `err` is checked, so a nil `req` is dereferenced first. -/
def fetchMenuStart (auth : GoStr) (req : Option HttpRequest)
    (err : Option GoError) : FetchMenuStart :=
  match req with
  | none => .nilPanic
  | some r =>
    let r := { r with
      headers := r.headers ++ [(("Authorization".toList), ("Basic ".toList) ++ auth)] }
    match err with
    | some e => .errorReturn e
    | none => .proceeds r

/-! ## Client Initializer: `api.NewWordPressClient` (wordpress.go lines 36–70)

The constructor launches one goroutine per language, each sending a
`MenuResult` on a channel, then receives both results in arrival order.
Each goroutine sends either `(items, nil)` or `(nil, err)`, so a result is
an `Except`.  Receiving a result with a non-nil error calls `log.Fatalf`
(the process never starts serving), modelled as an `Except.error` of the
whole construction.  The two arrivals form some permutation of the `"en"`
and `"fr"` results. -/

/-- `api.MenuResult` (wordpress.go lines 28–32): the language tag and
either the fetched items or the fetch error. -/
structure MenuResult where
  lang : GoStr
  res : Except GoError (List WordPressMenuItem)

/-- `api.WordPressClient` (wordpress.go lines 19–25).  `menus` models the
Go `map[string]*models.MenuData`. -/
structure WordPressClient where
  baseURL : GoStr
  wordPressAuth : GoStr
  menus : GoStr → Option MenuData
  menuIdEn : GoStr
  menuIdFr : GoStr

/-- The receive loop of `NewWordPressClient` (lines 60–67), processing
results in arrival order: a failed fetch is fatal (`log.Fatalf`);
a successful one stores `NewMenuData(items, baseURL)` under its
language. -/
def clientJoin (baseURL : GoStr) (arrivals : List MenuResult)
    (client : WordPressClient) : Except GoError WordPressClient :=
  match arrivals with
  | [] => .ok client
  | r :: rest =>
    match r.res with
    | .error e => .error e
    | .ok items =>
      clientJoin baseURL rest
        { client with
          menus := fun k => if k = r.lang
            then some (goNewMenuData items baseURL) else client.menus k }

/-- `api.NewWordPressClient` (lines 36–70), as a function of the fetch
results and of their arrival order on the channel.  `auth` stands for the
base64-encoded credential computed on line 37 (the encoding itself plays no
role in any claim).  Construction returns the client with both menus
cached, or is fatal. -/
def goNewWordPressClient (baseURL auth menuIdEn menuIdFr : GoStr)
    (arrivals : List MenuResult) : Except GoError WordPressClient :=
  clientJoin baseURL arrivals
    { baseURL := baseURL
      wordPressAuth := auth
      menus := fun _ => none
      menuIdEn := menuIdEn
      menuIdFr := menuIdFr }

/-! ## Auxiliary notions used by the statements -/

/-- Whether an `Except` result is an error (the Go `err != nil` check). -/
def exceptIsError {ε α : Type} (x : Except ε α) : Bool :=
  match x with
  | .error _ => true
  | .ok _ => false

/-- The identifiers appended by the second pass of `NewMenuData` to the
children of the node keyed `p`: the identifiers, in input order, of the
items whose parent field is nonzero and equals `p`.  Used to characterize
the children lists produced by `goNewMenuData`. -/
def childIdsFor (items : List WordPressMenuItem) (p : Int) : List Int :=
  (items.filter (fun i => decide (i.parent ≠ 0) && i.parent == p)).map
    (fun i => i.id)

/-- The node that `NewMenuData` ends up holding for an item `x` (assuming
distinct identifiers): the first-pass node with the second-pass children
appended. -/
def nodeFor (items : List WordPressMenuItem) (b : GoStr)
    (x : WordPressMenuItem) : MenuItemData :=
  { id := x.id
    title := x.titleRendered
    url := goReplaceOnce x.url b
    children := childIdsFor items x.id }

/-- The segments `segs` interleaved with the separator `sep`:
`joinSep sep [a, b, c] = a ++ sep ++ b ++ sep ++ c`.  Used to state that a
body made of base-origin-free segments separated by occurrences of the base
origin assembles to the segments alone. -/
def joinSep (sep : GoStr) : List GoStr → GoStr
  | [] => []
  | [s] => s
  | s :: s2 :: rest => s ++ sep ++ joinSep sep (s2 :: rest)

/-- `segs` is the left-to-right scan decomposition of `joinSep b segs` by
occurrences of `b`: before every separator the next occurrence of `b` is
exactly the separator (no occurrence of `b` starts inside the preceding
segment or straddles out of it), and the final segment contains no
occurrence of `b` at all.  This is precisely where the scan of Go's
`strings.Replace`/`ReplaceAll` finds its matches, so every string has such
a decomposition.  Decidable by construction. -/
def scanSeparated (b : GoStr) : List GoStr → Bool
  | [] => true
  | [s] => decide (¬ b <:+: s)
  | s :: s2 :: rest =>
    decide (∀ i < s.length, ¬ b <+: (joinSep b (s :: s2 :: rest)).drop i)
      && scanSeparated b (s2 :: rest)

/-! ## Concrete fixtures used by witnesses and counterexamples -/

/-- The page of the spec's end-to-end scenario. -/
def examplePage : WordPressPage :=
  { id := 1
    slug := ("about-us".toList)
    slugEn := ("about-us".toList)
    slugFr := ("a-propos".toList)
    lang := ("en".toList)
    modified := ("2023-05-15T10:30:45".toList)
    contentRendered := ("<p>See https://example.com/x</p>".toList)
    titleRendered := ("About Us".toList)
    excerptRendered := [] }

/-- The example page with an unsupported language code. -/
def examplePageDe : WordPressPage := { examplePage with lang := ("de".toList) }

/-- A concrete site-name map. -/
def exampleSiteNames : GoStr → GoStr := fun l =>
  if l = ("fr".toList) then ("Site FR".toList)
  else if l = ("en".toList) then ("Site EN".toList)
  else []

/-- The base origin of the spec's end-to-end scenario. -/
def exampleBase : GoStr := ("https://example.com".toList)

/-- The menu data built from no items. -/
def emptyMenuData : MenuData := goNewMenuData [] []

/-- An item whose nonzero parent identifier (99) matches no item. -/
def dupOrphan : WordPressMenuItem :=
  { id := 1, titleRendered := ("b".toList), parent := 99, url := [] }

/-- Two items sharing identifier 1: a root item, then the orphan. -/
def dupItems : List WordPressMenuItem :=
  [{ id := 1, titleRendered := ("a".toList), parent := 0, url := [] }, dupOrphan]

/-- A menu item whose URL contains the example base origin only in a
non-leading position. -/
def crossItem : WordPressMenuItem :=
  { id := 5, titleRendered := ("t".toList), parent := 0,
    url := ("https://other.com/?u=https://example.com/x".toList) }

/-- A root menu item. -/
def parentItem : WordPressMenuItem :=
  { id := 1, titleRendered := ("p".toList), parent := 0, url := [] }

/-- A child of `parentItem`. -/
def childItem : WordPressMenuItem :=
  { id := 2, titleRendered := ("c".toList), parent := 1, url := [] }

/-- The two items, child first. -/
def orderA : List WordPressMenuItem := [childItem, parentItem]

/-- The two items, parent first. -/
def orderB : List WordPressMenuItem := [parentItem, childItem]

/-- An orphan item with a fresh identifier: parent 99 matches no item. -/
def orphanItem : WordPressMenuItem :=
  { id := 3, titleRendered := ("o".toList), parent := 99, url := [] }

/-- A root item whose URL starts with the example base origin. -/
def leadItem : WordPressMenuItem :=
  { id := 7, titleRendered := ("l".toList), parent := 0,
    url := ("https://example.com/about".toList) }

/-- A transport error as surfaced by a timed-out fetch. -/
def timeoutErr : GoError := { typeName := urlErrorType, msg := ("timeout".toList) }

/-- A successful English menu fetch result with no items. -/
def enOkResult : MenuResult := { lang := ("en".toList), res := .ok [] }

/-- A failed French menu fetch result. -/
def frErrResult : MenuResult := { lang := ("fr".toList), res := .error timeoutErr }

/-! # Theorems -/

/-! ## Path Resolver -/

theorem goTrimSuffix_append (p suffix : GoStr) :
    goTrimSuffix (p ++ suffix) suffix = p := by
  have hs : suffix <:+ p ++ suffix := List.suffix_append p suffix
  simp only [goTrimSuffix, List.isSuffixOf_iff_suffix, hs, if_pos, List.length_append]
  have h : p.length + suffix.length - suffix.length = p.length := by omega
  rw [h, List.take_left]

theorem goTrimSuffix_of_not_suffix (p suffix : GoStr) (h : ¬ suffix <:+ p) :
    goTrimSuffix p suffix = p := by
  simp only [goTrimSuffix, List.isSuffixOf_iff_suffix, h, if_false]

/-- **C6.** For every URL path `p` that does not end in `/`, the path
resolver inlined in `FetchPage` yields the same `(slug, language)` pair for
`p` and for `p` with a single trailing `/` appended. -/
theorem resolvePath_trailing_slash_invariant (p : GoStr)
    (h : ¬ ("/".toList) <:+ p) :
    resolvePath (p ++ ("/".toList)) = resolvePath p := by
  have h1 : goTrimSuffix (p ++ ("/".toList)) ("/".toList) = p :=
    goTrimSuffix_append p ("/".toList)
  have h2 : goTrimSuffix p ("/".toList) = p :=
    goTrimSuffix_of_not_suffix p ("/".toList) h
  simp only [resolvePath, h1, h2]

theorem resolvePath_trailing_slash_invariant_witness :
    ¬ ("/".toList) <:+ ("/about-us".toList) ∧
      resolvePath (("/about-us".toList) ++ ("/".toList))
        = resolvePath ("/about-us".toList) :=
  ⟨by decide, resolvePath_trailing_slash_invariant ("/about-us".toList) (by decide)⟩

/-- **C7.** The path resolver maps `/` to the English home slug with
language `en`, and `/fr` to the French home slug with language `fr`. -/
theorem resolvePath_home_paths :
    resolvePath ("/".toList) = (("home".toList), ("en".toList)) ∧
      resolvePath ("/fr".toList) = (("home-fr".toList), ("fr".toList)) := by
  decide

/-! ## Behaviour of the `strings.Replace` translations -/

theorem goReplaceOnce_of_not_infix (old : GoStr) :
    ∀ s : GoStr, ¬ old <:+: s → goReplaceOnce s old = s := by
  intro s
  induction s with
  | nil =>
    intro _
    rw [goReplaceOnce]
    simp
  | cons c rest ih =>
    intro h
    have h1 : ¬ old <+: c :: rest := fun hp => h hp.isInfix
    have h2 : ¬ old <:+: rest := fun hi => h (List.infix_cons hi)
    rw [goReplaceOnce, dif_neg (fun hc => h1 hc.2)]
    show c :: goReplaceOnce rest old = c :: rest
    rw [ih h2]

theorem goReplaceOnce_of_prefix (s old : GoStr) (h1 : old ≠ [])
    (h2 : old <+: s) : goReplaceOnce s old = s.drop old.length := by
  rw [goReplaceOnce, dif_pos ⟨h1, h2⟩]

theorem goReplaceAll_of_not_infix (old : GoStr) :
    ∀ s : GoStr, ¬ old <:+: s → goReplaceAll s old = s := by
  intro s
  induction s with
  | nil =>
    intro _
    rw [goReplaceAll]
    simp
  | cons c rest ih =>
    intro h
    have h1 : ¬ old <+: c :: rest := fun hp => h hp.isInfix
    have h2 : ¬ old <:+: rest := fun hi => h (List.infix_cons hi)
    rw [goReplaceAll, dif_neg (fun hc => h1 hc.2)]
    show c :: goReplaceAll rest old = c :: rest
    rw [ih h2]

theorem goReplaceAll_skip (h : Char) (tl t : GoStr) :
    ∀ pre : GoStr, h ∉ pre →
      goReplaceAll (pre ++ (h :: tl) ++ t) (h :: tl)
        = pre ++ goReplaceAll t (h :: tl) := by
  intro pre
  induction pre with
  | nil =>
    intro _
    have hpref : (h :: tl) <+: (h :: tl) ++ t := List.prefix_append _ _
    simp only [List.nil_append]
    rw [goReplaceAll, dif_pos ⟨List.cons_ne_nil h tl, hpref⟩,
      List.drop_left]
  | cons c pre' ih =>
    intro hmem
    have hc : c ≠ h := fun hch => hmem (hch ▸ List.mem_cons_self c pre')
    have hmem' : h ∉ pre' := fun hm => hmem (List.mem_cons_of_mem c hm)
    have hnp : ¬ (h :: tl) <+: c :: (pre' ++ (h :: tl) ++ t) := by
      intro hp
      rcases List.cons_prefix_cons.mp hp with ⟨heq, -⟩
      exact hc heq.symm
    have hshape : (c :: pre') ++ (h :: tl) ++ t
        = c :: (pre' ++ (h :: tl) ++ t) := by simp
    rw [hshape, goReplaceAll, dif_neg (fun hcond => hnp hcond.2)]
    show c :: goReplaceAll (pre' ++ (h :: tl) ++ t) (h :: tl)
      = (c :: pre') ++ goReplaceAll t (h :: tl)
    rw [ih hmem']
    rfl

theorem goReplaceAll_of_head_not_mem (h : Char) (tl : GoStr) :
    ∀ s : GoStr, h ∉ s → goReplaceAll s (h :: tl) = s := by
  intro s
  induction s with
  | nil =>
    intro _
    rw [goReplaceAll]
    simp
  | cons c rest ih =>
    intro hmem
    have hc : c ≠ h := fun hch => hmem (hch ▸ List.mem_cons_self c rest)
    have hmem' : h ∉ rest := fun hm => hmem (List.mem_cons_of_mem c hm)
    have hnp : ¬ (h :: tl) <+: c :: rest := by
      intro hp
      rcases List.cons_prefix_cons.mp hp with ⟨heq, -⟩
      exact hc heq.symm
    rw [goReplaceAll, dif_neg (fun hcond => hnp hcond.2)]
    show c :: goReplaceAll rest (h :: tl) = c :: rest
    rw [ih hmem']

theorem goReplaceAll_joinSep (h : Char) (tl : GoStr) :
    ∀ segs : List GoStr, (∀ s ∈ segs, h ∉ s) →
      goReplaceAll (joinSep (h :: tl) segs) (h :: tl) = segs.flatten := by
  intro segs
  induction segs with
  | nil =>
    intro _
    rw [joinSep, goReplaceAll]
    simp
  | cons s rest ih =>
    intro hall
    match rest with
    | [] =>
      rw [joinSep]
      rw [goReplaceAll_of_head_not_mem h tl s (hall s (List.mem_cons_self s []))]
      simp
    | s2 :: rest' =>
      rw [joinSep]
      have hs : h ∉ s := hall s (List.mem_cons_self s _)
      have hall' : ∀ u ∈ s2 :: rest', h ∉ u := fun u hu =>
        hall u (List.mem_cons_of_mem s hu)
      rw [goReplaceAll_skip h tl (joinSep (h :: tl) (s2 :: rest')) s hs,
        ih hall']
      simp

theorem goReplaceOnce_nil_old : ∀ s : GoStr, goReplaceOnce s [] = s := by
  intro s
  induction s with
  | nil =>
    rw [goReplaceOnce]
    simp
  | cons c rest ih =>
    rw [goReplaceOnce, dif_neg (fun hc => hc.1 rfl)]
    show c :: goReplaceOnce rest [] = c :: rest
    rw [ih]

theorem goReplaceOnce_first_occurrence (b : GoStr) (hb : b ≠ []) :
    ∀ pre post : GoStr,
      (∀ i < pre.length, ¬ b <+: (pre ++ b ++ post).drop i) →
      goReplaceOnce (pre ++ b ++ post) b = pre ++ post := by
  intro pre
  induction pre with
  | nil =>
    intro post _
    simp only [List.nil_append]
    rw [goReplaceOnce, dif_pos ⟨hb, List.prefix_append b post⟩, List.drop_left]
  | cons c pre' ih =>
    intro post hmin
    have hshape : (c :: pre') ++ b ++ post = c :: (pre' ++ b ++ post) := by
      simp
    have h0 : ¬ b <+: c :: (pre' ++ b ++ post) := by
      have hm := hmin 0 (by simp)
      rwa [hshape, List.drop_zero] at hm
    rw [hshape, goReplaceOnce, dif_neg (fun hc => h0 hc.2)]
    show c :: goReplaceOnce (pre' ++ b ++ post) b = (c :: pre') ++ post
    have hmin' : ∀ i < pre'.length, ¬ b <+: (pre' ++ b ++ post).drop i := by
      intro i hi
      have hm := hmin (i + 1) (by simpa using Nat.succ_lt_succ hi)
      rwa [hshape, List.drop_succ_cons] at hm
    rw [ih post hmin']
    rfl

theorem goReplaceAll_next_occurrence (b : GoStr) (hb : b ≠ []) :
    ∀ pre t : GoStr,
      (∀ i < pre.length, ¬ b <+: (pre ++ b ++ t).drop i) →
      goReplaceAll (pre ++ b ++ t) b = pre ++ goReplaceAll t b := by
  intro pre
  induction pre with
  | nil =>
    intro t _
    simp only [List.nil_append]
    rw [goReplaceAll, dif_pos ⟨hb, List.prefix_append b t⟩, List.drop_left]
  | cons c pre' ih =>
    intro t hmin
    have hshape : (c :: pre') ++ b ++ t = c :: (pre' ++ b ++ t) := by
      simp
    have h0 : ¬ b <+: c :: (pre' ++ b ++ t) := by
      have hm := hmin 0 (by simp)
      rwa [hshape, List.drop_zero] at hm
    rw [hshape, goReplaceAll, dif_neg (fun hc => h0 hc.2)]
    show c :: goReplaceAll (pre' ++ b ++ t) b = (c :: pre') ++ goReplaceAll t b
    have hmin' : ∀ i < pre'.length, ¬ b <+: (pre' ++ b ++ t).drop i := by
      intro i hi
      have hm := hmin (i + 1) (by simpa using Nat.succ_lt_succ hi)
      rwa [hshape, List.drop_succ_cons] at hm
    rw [ih t hmin']
    rfl

theorem goReplaceAll_scanSeparated (b : GoStr) (hb : b ≠ []) :
    ∀ segs : List GoStr, scanSeparated b segs = true →
      goReplaceAll (joinSep b segs) b = segs.flatten := by
  intro segs
  induction segs with
  | nil =>
    intro _
    rw [joinSep, goReplaceAll]
    simp
  | cons s rest ih =>
    intro hscan
    match rest with
    | [] =>
      simp only [scanSeparated, decide_eq_true_eq] at hscan
      rw [joinSep, goReplaceAll_of_not_infix b s hscan]
      simp
    | s2 :: rest' =>
      simp only [scanSeparated, Bool.and_eq_true, decide_eq_true_eq] at hscan
      obtain ⟨hfirst, hrest⟩ := hscan
      rw [joinSep] at hfirst
      rw [joinSep, goReplaceAll_next_occurrence b hb s
        (joinSep b (s2 :: rest')) hfirst, ih hrest]
      simp

/-! ## Characterizations of the two passes of `NewMenuData` -/

theorem foldl_menuMapStep_untouched (b : GoStr) (k : Int) :
    ∀ (items : List WordPressMenuItem) (m0 : Int → Option MenuItemData),
      (∀ i ∈ items, i.id ≠ k) →
      items.foldl (menuMapStep b) m0 k = m0 k := by
  intro items
  induction items with
  | nil => intro m0 _; rfl
  | cons i rest ih =>
    intro m0 hall
    rw [List.foldl_cons, ih (menuMapStep b m0 i)
      (fun j hj => hall j (List.mem_cons_of_mem i hj))]
    simp only [menuMapStep]
    rw [if_neg (fun hk => hall i (List.mem_cons_self i rest) hk.symm)]

theorem foldl_menuMapStep_absent (b : GoStr) (k : Int) :
    ∀ (items : List WordPressMenuItem),
      (∀ i ∈ items, i.id ≠ k) → buildMenuMap items b k = none := by
  intro items hall
  rw [buildMenuMap, foldl_menuMapStep_untouched b k items (fun _ => none) hall]

theorem foldl_menuMapStep_nodup (b : GoStr) :
    ∀ (items : List WordPressMenuItem) (m0 : Int → Option MenuItemData)
      (x : WordPressMenuItem),
      (items.map (fun i => i.id)).Nodup → x ∈ items →
      items.foldl (menuMapStep b) m0 x.id = some (mkNode x b) := by
  intro items
  induction items with
  | nil => intro m0 x _ hx; exact absurd hx (List.not_mem_nil x)
  | cons i rest ih =>
    intro m0 x hnd hx
    rw [List.map_cons, List.nodup_cons] at hnd
    rcases List.mem_cons.mp hx with hxi | hxr
    · subst hxi
      rw [List.foldl_cons, foldl_menuMapStep_untouched b x.id rest
        (menuMapStep b m0 x)
        (fun j hj hjid => hnd.1 (hjid ▸ List.mem_map_of_mem (fun i => i.id) hj))]
      simp [menuMapStep]
    · rw [List.foldl_cons]
      exact ih (menuMapStep b m0 i) x hnd.2 hxr

theorem buildMenuMap_nodup (b : GoStr) (items : List WordPressMenuItem)
    (x : WordPressMenuItem) (hnd : (items.map (fun i => i.id)).Nodup)
    (hx : x ∈ items) : buildMenuMap items b x.id = some (mkNode x b) :=
  foldl_menuMapStep_nodup b items (fun _ => none) x hnd hx

theorem foldl_menuTreeStep_roots :
    ∀ (items : List WordPressMenuItem)
      (st : (Int → Option MenuItemData) × List Int),
      (items.foldl menuTreeStep st).2
        = st.2 ++ (items.filter (fun i => i.parent == 0)).map (fun i => i.id) := by
  intro items
  induction items with
  | nil => intro st; simp
  | cons i rest ih =>
    intro st
    rw [List.foldl_cons, ih (menuTreeStep st i)]
    by_cases hp : i.parent = 0
    · have hstep : menuTreeStep st i = (st.1, st.2 ++ [i.id]) := by
        simp only [menuTreeStep, hp]
        simp
      rw [hstep]
      simp [List.filter_cons, hp]
    · have hstep : (menuTreeStep st i).2 = st.2 := by
        simp only [menuTreeStep, if_pos hp]
        rcases hm : st.1 i.parent with _ | q
        · rfl
        · rfl
      rw [hstep]
      simp [List.filter_cons, hp]

theorem foldl_menuTreeStep_map_none (p : Int) :
    ∀ (items : List WordPressMenuItem)
      (st : (Int → Option MenuItemData) × List Int),
      st.1 p = none → (items.foldl menuTreeStep st).1 p = none := by
  intro items
  induction items with
  | nil => intro st h; exact h
  | cons i rest ih =>
    intro st h
    rw [List.foldl_cons]
    apply ih
    by_cases hp : i.parent = 0
    · simp only [menuTreeStep, hp]
      simpa using h
    · simp only [menuTreeStep, if_pos hp]
      rcases hm : st.1 i.parent with _ | q
      · exact h
      · have hne : p ≠ i.parent := fun hpe => by
          rw [hpe, hm] at h
          exact Option.noConfusion h
        simpa [hne] using h


theorem foldl_menuTreeStep_children (p : Int) :
    ∀ (items : List WordPressMenuItem)
      (st : (Int → Option MenuItemData) × List Int) (n0 : MenuItemData),
      st.1 p = some n0 →
      (items.foldl menuTreeStep st).1 p
        = some { n0 with children := n0.children ++ childIdsFor items p } := by
  intro items
  induction items with
  | nil =>
    intro st n0 h
    simpa [childIdsFor] using h
  | cons i rest ih =>
    intro st n0 h
    rw [List.foldl_cons]
    by_cases hp0 : i.parent = 0
    · have hstep : (menuTreeStep st i).1 = st.1 := by
        simp only [menuTreeStep, hp0]
        simp
      have hfilter : childIdsFor (i :: rest) p = childIdsFor rest p := by
        simp [childIdsFor, List.filter_cons, hp0]
      rw [hfilter]
      exact ih (menuTreeStep st i) n0 (hstep ▸ h)
    · rcases hm : st.1 i.parent with _ | q
      · have hip : i.parent ≠ p := fun hpe => by
          rw [hpe, h] at hm
          exact Option.noConfusion hm
        have hstep : menuTreeStep st i = st := by
          simp only [menuTreeStep, if_pos hp0, hm]
        have hfilter : childIdsFor (i :: rest) p = childIdsFor rest p := by
          simp [childIdsFor, List.filter_cons, hip]
        rw [hfilter, hstep]
        exact ih st n0 h
      · by_cases hip : i.parent = p
        · have hq : n0 = q := by
            rw [hip, h] at hm
            exact Option.some.inj hm
          subst hq
          subst hip
          have hstep : (menuTreeStep st i).1 i.parent
              = some { n0 with children := n0.children ++ [i.id] } := by
            simp only [menuTreeStep, if_pos hp0, hm]
            simp
          have hres := ih (menuTreeStep st i)
            { n0 with children := n0.children ++ [i.id] } hstep
          rw [hres]
          have hfilter : childIdsFor (i :: rest) i.parent
              = i.id :: childIdsFor rest i.parent := by
            simp [childIdsFor, List.filter_cons, hp0]
          rw [hfilter]
          simp
        · have hmap : (menuTreeStep st i).1 p = st.1 p := by
            simp only [menuTreeStep, if_pos hp0, hm]
            have hne : p ≠ i.parent := fun hpe => hip hpe.symm
            simp [hne]
          have hfilter : childIdsFor (i :: rest) p = childIdsFor rest p := by
            simp [childIdsFor, List.filter_cons, hip]
          rw [hfilter]
          exact ih (menuTreeStep st i) n0 (hmap ▸ h)

theorem goNewMenuData_roots_eq (items : List WordPressMenuItem) (b : GoStr) :
    (goNewMenuData items b).roots
      = (items.filter (fun i => i.parent == 0)).map (fun i => i.id) := by
  show (items.foldl menuTreeStep (buildMenuMap items b, [])).2 = _
  rw [foldl_menuTreeStep_roots]
  simp

theorem goNewMenuData_map_absent (items : List WordPressMenuItem) (b : GoStr)
    (p : Int) (h : ∀ i ∈ items, i.id ≠ p) :
    (goNewMenuData items b).map p = none := by
  show (items.foldl menuTreeStep (buildMenuMap items b, [])).1 p = none
  exact foldl_menuTreeStep_map_none p items _ (foldl_menuMapStep_absent b p items h)

theorem goNewMenuData_map_nodup (items : List WordPressMenuItem) (b : GoStr)
    (x : WordPressMenuItem) (hnd : (items.map (fun i => i.id)).Nodup)
    (hx : x ∈ items) :
    (goNewMenuData items b).map x.id = some (nodeFor items b x) := by
  show (items.foldl menuTreeStep (buildMenuMap items b, [])).1 x.id = _
  rw [foldl_menuTreeStep_children x.id items (buildMenuMap items b, [])
    (mkNode x b) (buildMenuMap_nodup b items x hnd hx)]
  simp [mkNode, nodeFor]

theorem mem_goNewMenuData_roots (items : List WordPressMenuItem) (b : GoStr)
    (r : Int) :
    r ∈ (goNewMenuData items b).roots
      ↔ ∃ i, i ∈ items ∧ i.parent = 0 ∧ i.id = r := by
  rw [goNewMenuData_roots_eq]
  simp [List.mem_map, List.mem_filter, and_assoc]

theorem isChildOf_goNewMenuData_iff (items : List WordPressMenuItem)
    (b : GoStr) (p c : Int) (hnd : (items.map (fun i => i.id)).Nodup) :
    isChildOf (goNewMenuData items b) p c = true
      ↔ (∃ j, j ∈ items ∧ j.id = p)
          ∧ (∃ i, i ∈ items ∧ i.parent ≠ 0 ∧ i.parent = p ∧ i.id = c) := by
  constructor
  · intro hc
    by_cases hreal : ∃ j, j ∈ items ∧ j.id = p
    · obtain ⟨j, hj, hjid⟩ := hreal
      have hmap := goNewMenuData_map_nodup items b j hnd hj
      rw [hjid] at hmap
      refine ⟨⟨j, hj, hjid⟩, ?_⟩
      rw [isChildOf, hmap] at hc
      simp only [decide_eq_true_eq, nodeFor, childIdsFor, List.mem_map,
        List.mem_filter, Bool.and_eq_true, beq_iff_eq] at hc
      obtain ⟨i, ⟨hi, hig, hip⟩, hic⟩ := hc
      exact ⟨i, hi, hig, hip.trans hjid, hic⟩
    · exfalso
      have habs : ∀ i ∈ items, i.id ≠ p := fun i hi hip => hreal ⟨i, hi, hip⟩
      rw [isChildOf, goNewMenuData_map_absent items b p habs] at hc
      exact Bool.noConfusion hc
  · rintro ⟨⟨j, hj, hjid⟩, ⟨i, hi, hip0, hipp, hic⟩⟩
    have hmap := goNewMenuData_map_nodup items b j hnd hj
    rw [hjid] at hmap
    rw [isChildOf, hmap]
    simp only [decide_eq_true_eq, nodeFor, childIdsFor, List.mem_map,
      List.mem_filter, Bool.and_eq_true, beq_iff_eq]
    exact ⟨i, ⟨hi, hip0, hipp.trans hjid.symm⟩, hic⟩

/-! ## Menu Tree Builder claims -/

/-- **C2** (amended: for items with distinct identifiers).  An item whose
nonzero parent identifier equals no item's identifier is dropped by
`NewMenuData`: its identifier appears neither in the root sequence nor in
any node's children.  Without the distinctness proviso the claim fails, see
the counterexample. -/
theorem menu_orphan_dropped (items : List WordPressMenuItem) (b : GoStr)
    (x : WordPressMenuItem) (p : Int)
    (hnd : (items.map (fun i => i.id)).Nodup)
    (hx : x ∈ items) (hxp : x.parent ≠ 0)
    (horph : ∀ j ∈ items, j.id ≠ x.parent) :
    x.id ∉ (goNewMenuData items b).roots ∧
      isChildOf (goNewMenuData items b) p x.id = false := by
  constructor
  · intro hmem
    rw [mem_goNewMenuData_roots] at hmem
    obtain ⟨i, hi, hi0, hiid⟩ := hmem
    have hieq : i = x := List.inj_on_of_nodup_map hnd hi hx hiid
    exact hxp (hieq ▸ hi0)
  · cases hb : isChildOf (goNewMenuData items b) p x.id with
    | false => rfl
    | true =>
      exfalso
      obtain ⟨⟨j, hj, hjid⟩, ⟨i, hi, hi0, hip, hiid⟩⟩ :=
        (isChildOf_goNewMenuData_iff items b p x.id hnd).mp hb
      have hieq : i = x := List.inj_on_of_nodup_map hnd hi hx hiid
      exact horph j hj (hjid.trans (hip.symm.trans (hieq ▸ rfl)))

theorem menu_orphan_dropped_witness :
    orphanItem.id ∉ (goNewMenuData [parentItem, orphanItem] []).roots ∧
      isChildOf (goNewMenuData [parentItem, orphanItem] []) 1 orphanItem.id
        = false :=
  menu_orphan_dropped [parentItem, orphanItem] [] orphanItem 1
    (by decide) (by decide) (by decide) (by decide)

/-- **C2, counterexample to the claim as stated.**  With two items sharing
identifier 1 — a root item titled `a` first, then an orphan titled `b`
whose parent 99 matches no item — the orphan's node (the node carrying its
identifier and its title) does appear in the forest's root sequence, so the
unqualified claim is false. -/
theorem menu_orphan_dropped_counterexample :
    dupOrphan ∈ dupItems ∧ dupOrphan.parent ≠ 0 ∧
      (∀ j ∈ dupItems, j.id ≠ dupOrphan.parent) ∧
      (goNewMenuData dupItems []).roots = [dupOrphan.id] ∧
      Option.map (fun n => n.title)
          ((goNewMenuData dupItems []).map dupOrphan.id)
        = some dupOrphan.titleRendered := by
  decide

/-- **C3** (amended).  `NewMenuData` rewrites each item's URL by removing
the first occurrence of the base origin anywhere in the URL: whenever the
URL splits as `pre ++ base ++ post` at its first occurrence of the base
origin (no occurrence starts before position `|pre|`; `pre = []` is the
leading case), the node's URL is `pre ++ post`; URLs not containing the
base origin at all are unchanged.  The claim's statement that a URL
containing the base origin only in a non-leading position is not modified
is false, see the counterexample. -/
theorem menu_url_rewrite (items : List WordPressMenuItem) (b : GoStr)
    (x : WordPressMenuItem) (pre post : GoStr)
    (hnd : (items.map (fun i => i.id)).Nodup) (hx : x ∈ items) :
    ∃ n, (goNewMenuData items b).map x.id = some n ∧
      (¬ b <:+: x.url → n.url = x.url) ∧
      (b ≠ [] → x.url = pre ++ b ++ post →
        (∀ i < pre.length, ¬ b <+: x.url.drop i) → n.url = pre ++ post) := by
  refine ⟨nodeFor items b x, goNewMenuData_map_nodup items b x hnd hx, ?_, ?_⟩
  · intro hninf
    simp only [nodeFor]
    exact goReplaceOnce_of_not_infix b x.url hninf
  · intro hb hdecomp hmin
    rw [hdecomp] at hmin
    simp only [nodeFor]
    rw [hdecomp]
    exact goReplaceOnce_first_occurrence b hb pre post hmin

theorem menu_url_rewrite_witness :
    ∃ n, (goNewMenuData [crossItem] exampleBase).map crossItem.id = some n ∧
      n.url = ("https://other.com/?u=/x".toList) := by
  obtain ⟨n, hmap, hninf, hfirst⟩ := menu_url_rewrite [crossItem] exampleBase
    crossItem ("https://other.com/?u=".toList) ("/x".toList)
    (by decide) (by decide)
  exact ⟨n, hmap, hfirst (by decide) (by decide) (by decide)⟩

/-- **C3, counterexample to the claim as stated.**  `strings.Replace` with
count 1 removes the first occurrence of the base origin wherever it is, not
only a leading one: a URL containing the base origin only in a non-leading
position is modified. -/
theorem menu_url_rewrite_counterexample :
    ¬ exampleBase <+: crossItem.url ∧
      Option.map (fun n => n.url)
          ((goNewMenuData [crossItem] exampleBase).map crossItem.id)
        = some ("https://other.com/?u=/x".toList) ∧
      ("https://other.com/?u=/x".toList) ≠ crossItem.url := by
  refine ⟨by decide, ?_, by decide⟩
  rw [goNewMenuData_map_nodup [crossItem] exampleBase crossItem
    (by decide) (by decide)]
  simp only [Option.map_some']
  have hurl : (nodeFor [crossItem] exampleBase crossItem).url
      = goReplaceOnce crossItem.url exampleBase := rfl
  rw [hurl]
  simp [goReplaceOnce, crossItem, exampleBase]

/-- **C4.**  For a set of menu items with distinct identifiers, any two
input orderings of the same items produce forests with identical
parent/child relationships: the same root membership and the same
is-child-of relation. -/
theorem menu_order_independent (l1 l2 : List WordPressMenuItem) (b : GoStr)
    (r p c : Int) (hperm : l1.Perm l2)
    (hnd : (l1.map (fun i => i.id)).Nodup) :
    (r ∈ (goNewMenuData l1 b).roots ↔ r ∈ (goNewMenuData l2 b).roots) ∧
      isChildOf (goNewMenuData l1 b) p c
        = isChildOf (goNewMenuData l2 b) p c ∧
      (∀ x ∈ l1, (goNewMenuData l1 b).map x.id = some (nodeFor l1 b x)) := by
  have hnd2 : (l2.map (fun i => i.id)).Nodup :=
    ((hperm.map (fun i => i.id)).nodup_iff).mp hnd
  refine ⟨?_, ?_, fun x hx => goNewMenuData_map_nodup l1 b x hnd hx⟩
  · rw [mem_goNewMenuData_roots, mem_goNewMenuData_roots]
    constructor
    · rintro ⟨i, hi, hrest⟩
      exact ⟨i, hperm.mem_iff.mp hi, hrest⟩
    · rintro ⟨i, hi, hrest⟩
      exact ⟨i, hperm.mem_iff.mpr hi, hrest⟩
  · have hiff : isChildOf (goNewMenuData l1 b) p c = true
        ↔ isChildOf (goNewMenuData l2 b) p c = true := by
      rw [isChildOf_goNewMenuData_iff l1 b p c hnd,
        isChildOf_goNewMenuData_iff l2 b p c hnd2]
      constructor
      · rintro ⟨⟨j, hj, hjid⟩, ⟨i, hi, h0, hpp, hcc⟩⟩
        exact ⟨⟨j, hperm.mem_iff.mp hj, hjid⟩,
          ⟨i, hperm.mem_iff.mp hi, h0, hpp, hcc⟩⟩
      · rintro ⟨⟨j, hj, hjid⟩, ⟨i, hi, h0, hpp, hcc⟩⟩
        exact ⟨⟨j, hperm.mem_iff.mpr hj, hjid⟩,
          ⟨i, hperm.mem_iff.mpr hi, h0, hpp, hcc⟩⟩
    cases hb1 : isChildOf (goNewMenuData l1 b) p c <;>
      cases hb2 : isChildOf (goNewMenuData l2 b) p c <;> simp_all

theorem menu_order_independent_witness :
    orderA.Perm orderB ∧
      ((1 ∈ (goNewMenuData orderA []).roots
          ↔ 1 ∈ (goNewMenuData orderB []).roots) ∧
        isChildOf (goNewMenuData orderA []) 1 2
          = isChildOf (goNewMenuData orderB []) 1 2 ∧
        (∀ x ∈ orderA,
          (goNewMenuData orderA []).map x.id = some (nodeFor orderA [] x))) :=
  ⟨by decide, menu_order_independent orderA orderB [] 1 1 2
    (by decide) (by decide)⟩

/-! ## View Model Assembler claims -/

/-- **C8.**  For a page whose language code is neither `en` nor `fr`, the
assembled view model has `Lang = "en"`, and its language-swap path, home
path, and site name equal those of the same page with language `en`. -/
theorem newPageData_unsupported_lang (page : WordPressPage) (menu : MenuData)
    (siteNames : GoStr → GoStr) (baseUrl : GoStr)
    (h1 : page.lang ≠ ("en".toList)) (h2 : page.lang ≠ ("fr".toList)) :
    (goNewPageData page menu siteNames baseUrl).lang = ("en".toList) ∧
      (goNewPageData page menu siteNames baseUrl).langSwapPath
        = (goNewPageData { page with lang := ("en".toList) }
            menu siteNames baseUrl).langSwapPath ∧
      (goNewPageData page menu siteNames baseUrl).home
        = (goNewPageData { page with lang := ("en".toList) }
            menu siteNames baseUrl).home ∧
      (goNewPageData page menu siteNames baseUrl).siteName
        = (goNewPageData { page with lang := ("en".toList) }
            menu siteNames baseUrl).siteName := by
  have hlang : (if page.lang ≠ ("en".toList) ∧ page.lang ≠ ("fr".toList)
      then ("en".toList) else page.lang) = ("en".toList) := if_pos ⟨h1, h2⟩
  simp only [goNewPageData, langPaths, hlang]
  simp

theorem newPageData_unsupported_lang_witness :
    examplePageDe.lang ≠ ("en".toList) ∧
      (goNewPageData examplePageDe emptyMenuData exampleSiteNames
        exampleBase).lang = ("en".toList) :=
  ⟨by decide, (newPageData_unsupported_lang examplePageDe emptyMenuData
    exampleSiteNames exampleBase (by decide) (by decide)).1⟩

/-- **C9.**  The assembled view model's body is the page's rendered body
with every occurrence of the base origin deleted: whenever the rendered
body decomposes into its left-to-right scan segments separated by the
occurrences of the base origin (`scanSeparated` — every string decomposes
this way), the assembled body is exactly the concatenation of the
segments, each separating occurrence deleted. -/
theorem newPageData_body_strips_base (page : WordPressPage) (menu : MenuData)
    (siteNames : GoStr → GoStr) (b : GoStr) (segs : List GoStr)
    (hb : b ≠ []) (hscan : scanSeparated b segs = true)
    (hbody : page.contentRendered = joinSep b segs) :
    (goNewPageData page menu siteNames b).content = segs.flatten := by
  show goReplaceAll page.contentRendered b = segs.flatten
  rw [hbody]
  exact goReplaceAll_scanSeparated b hb segs hscan

theorem newPageData_body_strips_base_witness :
    (goNewPageData examplePage emptyMenuData exampleSiteNames
      exampleBase).content = ("<p>See /x</p>".toList) := by
  have happ := newPageData_body_strips_base examplePage emptyMenuData
    exampleSiteNames exampleBase [("<p>See ".toList), ("/x</p>".toList)]
    (by decide) (by decide) (by decide)
  exact happ.trans (by decide)

example :
    (goNewPageData { examplePage with
        contentRendered := ("<a href=\"https://example.com/x\">x</a>".toList) }
      emptyMenuData exampleSiteNames exampleBase).content
      = ("<a href=\"/x\">x</a>".toList) := by
  have happ := newPageData_body_strips_base
    { examplePage with
      contentRendered := ("<a href=\"https://example.com/x\">x</a>".toList) }
    emptyMenuData exampleSiteNames exampleBase
    [("<a href=\"".toList), ("/x\">x</a>".toList)]
    (by decide) (by decide) (by decide)
  exact happ.trans (by decide)

/-! ## CMS Client claims -/

/-- **C1, counterexample to the claim as stated.**  The not-found failure
of `FetchPage` (a 200 response parsing to an empty array) and an upstream
status failure are both built by `fmt.Errorf` without `%w` and so carry the
same Go dynamic error type; they cannot be told apart by kind, only by
message. -/
theorem fetchPage_not_found_counterexample :
    fetchPageProcess (.response 200 [] (.ok []))
        = .error (mkErrorString ("page not found".toList)) ∧
      fetchPageProcess (.response 500 ("oops".toList) (.ok []))
        = .error (mkErrorString (statusFailMsg 500 ("oops".toList))) ∧
      (mkErrorString ("page not found".toList)).typeName
        = (mkErrorString (statusFailMsg 500 ("oops".toList))).typeName :=
  ⟨rfl, rfl, rfl⟩

/-- **C1** (amended).  On a 200 response whose body parses as an empty
array, `FetchPage` returns the dedicated error `page not found`; this error
differs as a value from every upstream status failure (their messages
always differ), and differs by dynamic type from every transport failure
(`*url.Error`) and every `encoding/json` parse failure — but it shares its
dynamic type with status failures, so the not-found kind is recognizable
only by its message. -/
theorem fetchPage_not_found_distinct (status : Int)
    (bodyRaw body2 tmsg : GoStr) (e : GoError) (parsed : PagesParse)
    (hs : status ≠ 200) (hj : e.typeName ∈ jsonUnmarshalErrorTypes) :
    fetchPageProcess (.response 200 bodyRaw (.ok []))
        = .error (mkErrorString ("page not found".toList)) ∧
      fetchPageProcess (.response status body2 parsed)
        = .error (mkErrorString (statusFailMsg status body2)) ∧
      mkErrorString (statusFailMsg status body2)
        ≠ mkErrorString ("page not found".toList) ∧
      fetchPageProcess (.transportErr tmsg)
        = .error { typeName := urlErrorType, msg := tmsg } ∧
      urlErrorType ≠ (mkErrorString ("page not found".toList)).typeName ∧
      fetchPageProcess (.response 200 bodyRaw (.failure e)) = .error e ∧
      e.typeName ≠ (mkErrorString ("page not found".toList)).typeName := by
  refine ⟨?_, ?_, ?_, rfl, by decide, ?_, ?_⟩
  · simp [fetchPageProcess]
  · simp [fetchPageProcess, hs]
  · intro heq
    have hmsg : statusFailMsg status body2 = ("page not found".toList) :=
      congrArg GoError.msg heq
    have hW : (statusFailMsg status body2).head? = some 'W' := rfl
    rw [hmsg] at hW
    exact absurd hW (by decide)
  · simp [fetchPageProcess]
  · intro heq
    have hj' := hj
    simp only [jsonUnmarshalErrorTypes, List.mem_cons, List.not_mem_nil,
      or_false] at hj'
    have htn : (mkErrorString ("page not found".toList)).typeName
        = ("errorString".toList) := rfl
    rw [htn] at heq
    rcases hj' with h' | h' | h'
    · rw [h'] at heq
      exact absurd heq (by decide)
    · rw [h'] at heq
      exact absurd heq (by decide)
    · rw [h'] at heq
      exact absurd heq (by decide)

theorem fetchPage_not_found_distinct_witness :
    fetchPageProcess (.response 200 [] (.ok []))
      = .error (mkErrorString ("page not found".toList)) :=
  (fetchPage_not_found_distinct 500 [] ("oops".toList) ("refused".toList)
    { typeName := ("json.SyntaxError".toList), msg := ("bad".toList) }
    (.ok []) (by decide) (by decide)).1

/-! ## FetchMenu request construction claim -/

/-- **C10.**  In `FetchMenu` the `Authorization` header is added before the
request-construction error is checked, so whenever construction fails
(returning a nil request alongside the error), `FetchMenu` dereferences a
nil pointer instead of returning the error. -/
theorem fetchMenu_nil_deref (auth : GoStr) (e : GoError) :
    fetchMenuStart auth none (some e) = .nilPanic ∧
      FetchMenuStart.nilPanic ≠ FetchMenuStart.errorReturn e :=
  ⟨rfl, fun hcontra => FetchMenuStart.noConfusion hcontra⟩

theorem fetchMenu_nil_deref_witness :
    fetchMenuStart ("auth".toList) none (some timeoutErr) = .nilPanic ∧
      FetchMenuStart.nilPanic ≠ FetchMenuStart.errorReturn timeoutErr :=
  fetchMenu_nil_deref ("auth".toList) timeoutErr

/-! ## Client Initializer claim -/

theorem perm_pair_eq {α : Type} {l : List α} {a b : α} (hp : l.Perm [a, b]) :
    l = [a, b] ∨ l = [b, a] := by
  have hlen : l.length = 2 := hp.length_eq
  rcases l with _ | ⟨x, _ | ⟨y, _ | ⟨z, t⟩⟩⟩
  · simp at hlen
  · simp at hlen
  · have hx : x ∈ [a, b] := hp.subset (List.mem_cons_self x [y])
    rcases List.mem_cons.mp hx with hxa | hxb
    · subst hxa
      have hyb : [y].Perm [b] := (List.perm_cons x).mp hp
      have hy : y = b := by simpa using List.perm_singleton.mp hyb
      subst hy
      exact Or.inl rfl
    · have hxb' : x = b := by simpa using hxb
      subst hxb'
      have htr : ([x, y] : List α).Perm [x, a] :=
        hp.trans (List.Perm.swap x a [])
      have hya : [y].Perm [a] := (List.perm_cons x).mp htr
      have hy : y = a := by simpa using List.perm_singleton.mp hya
      subst hy
      exact Or.inr rfl
  · simp at hlen

/-- **C5.**  However the two menu-fetch results arrive on the channel,
client construction is fatal exactly when either language's fetch failed;
when both succeed, the returned client's menu cache holds both languages'
menu data. -/
theorem client_init_fail_fast (baseURL auth enId frId : GoStr)
    (rEn rFr : Except GoError (List WordPressMenuItem))
    (arrivals : List MenuResult)
    (hp : arrivals.Perm [{ lang := ("en".toList), res := rEn },
      { lang := ("fr".toList), res := rFr }]) :
    exceptIsError (goNewWordPressClient baseURL auth enId frId arrivals)
        = (exceptIsError rEn || exceptIsError rFr) ∧
      (∀ itemsEn itemsFr, rEn = .ok itemsEn → rFr = .ok itemsFr →
        ∃ cl, goNewWordPressClient baseURL auth enId frId arrivals = .ok cl ∧
          cl.menus ("en".toList) = some (goNewMenuData itemsEn baseURL) ∧
          cl.menus ("fr".toList) = some (goNewMenuData itemsFr baseURL)) := by
  have hne : (("en".toList) : GoStr) ≠ ("fr".toList) := by decide
  have hne' : (("fr".toList) : GoStr) ≠ ("en".toList) := by decide
  rcases perm_pair_eq hp with heq | heq <;> subst heq <;>
    rcases rEn with eEn | itemsEn <;> rcases rFr with eFr | itemsFr <;>
    refine ⟨by simp [goNewWordPressClient, clientJoin, exceptIsError], ?_⟩ <;>
    intro i1 i2 h1 h2
  · exact Except.noConfusion h1
  · exact Except.noConfusion h1
  · exact Except.noConfusion h2
  · injection h1 with h1e
    injection h2 with h2e
    subst h1e
    subst h2e
    refine ⟨_, rfl, ?_, ?_⟩
    · show (fun k => if k = ("fr".toList)
          then some (goNewMenuData itemsFr baseURL)
          else if k = ("en".toList) then some (goNewMenuData itemsEn baseURL)
          else none) ("en".toList) = some (goNewMenuData itemsEn baseURL)
      simp [hne]
    · show (fun k => if k = ("fr".toList)
          then some (goNewMenuData itemsFr baseURL)
          else if k = ("en".toList) then some (goNewMenuData itemsEn baseURL)
          else none) ("fr".toList) = some (goNewMenuData itemsFr baseURL)
      simp
  · exact Except.noConfusion h1
  · exact Except.noConfusion h1
  · exact Except.noConfusion h2
  · injection h1 with h1e
    injection h2 with h2e
    subst h1e
    subst h2e
    refine ⟨_, rfl, ?_, ?_⟩
    · show (fun k => if k = ("en".toList)
          then some (goNewMenuData itemsEn baseURL)
          else if k = ("fr".toList) then some (goNewMenuData itemsFr baseURL)
          else none) ("en".toList) = some (goNewMenuData itemsEn baseURL)
      simp
    · show (fun k => if k = ("en".toList)
          then some (goNewMenuData itemsEn baseURL)
          else if k = ("fr".toList) then some (goNewMenuData itemsFr baseURL)
          else none) ("fr".toList) = some (goNewMenuData itemsFr baseURL)
      simp [hne']

theorem client_init_fail_fast_witness :
    exceptIsError (goNewWordPressClient ("b".toList) ("a".toList)
      ("1".toList) ("2".toList)
      [{ lang := ("fr".toList), res := Except.error timeoutErr },
        { lang := ("en".toList), res := Except.ok [] }]) = true := by
  have happ := (client_init_fail_fast ("b".toList) ("a".toList) ("1".toList)
    ("2".toList) (Except.ok []) (Except.error timeoutErr)
    [{ lang := ("fr".toList), res := Except.error timeoutErr },
      { lang := ("en".toList), res := Except.ok [] }]
    (List.Perm.swap ({ lang := ("en".toList), res := Except.ok [] } :
        MenuResult)
      ({ lang := ("fr".toList), res := Except.error timeoutErr } :
        MenuResult) [])).1
  exact happ.trans rfl
